/-
Verification of the DiffMem memory store (`src/core/memory/diffmem_integration.py`).

The Python module is shallowly embedded below.  Python floats are idealised as
real numbers (`ℝ`); machine integers as `ℕ`/`ℤ`; byte strings as `List ℕ`
(each element < 256); Python exceptions as `Except`/`Option`.  External
libraries used by the module are embedded as follows:

* `zlib` (lossless byte compressor): an abstract `Zlib` structure carrying the
  library's documented round-trip contract;
* `hashlib.sha256`: a full executable implementation of FIPS 180-4 SHA-256;
* CPython `str.encode('utf-8')` / `bytes.decode('utf-8')`: an executable
  UTF-8 codec (`utf8Encode` / `utf8Decode`) with strict validation;
* `sklearn.metrics.pairwise.cosine_similarity`: `ncos` below (dot product over
  L2 norms, a zero-norm vector being treated as having norm 1, matching
  sklearn's `normalize`), guarded by the library's shape checks — `npRowsOk`
  models the `ValueError` `np.array` raises on a ragged row list and
  `cosineShapeOk` the one `check_pairwise_arrays` raises on a query/matrix
  dimension mismatch;
* `sklearn.cluster.DBSCAN` over the cosine metric: `dbscanLabels` below
  (deterministic neighborhood/core-point expansion in index order);
* `numpy` arithmetic: ordinary real arithmetic.

The mutable `DiffMemManager` object is modelled as an explicit state
(`DMState`) threaded through the operations; the wall clock (`time.time()`)
and the success of a Git commit are explicit parameters.
-/
import Mathlib

namespace HiveMem

/-! ## UTF-8 codec

Models CPython's `str.encode('utf-8')` and `bytes.decode('utf-8')` (strict
mode).  A Lean `String` is a sequence of Unicode scalar values, exactly the
texts CPython can encode. -/

/-- UTF-8 encoding of one Unicode scalar value (1 to 4 bytes). -/
def utf8EncodeChar (c : Char) : List ℕ :=
  let v := c.toNat
  if v < 128 then [v]
  else if v < 2048 then [192 + v / 64, 128 + v % 64]
  else if v < 65536 then [224 + v / 4096, 128 + v / 64 % 64, 128 + v % 64]
  else [240 + v / 262144, 128 + v / 4096 % 64, 128 + v / 64 % 64, 128 + v % 64]

/-- UTF-8 encoding of a character sequence (`str.encode('utf-8')`). -/
def utf8Encode : List Char → List ℕ
  | [] => []
  | c :: cs => utf8EncodeChar c ++ utf8Encode cs

/-- Consume one UTF-8 continuation byte (`10xxxxxx`), returning its 6 payload
bits and the remaining bytes. -/
def contByte : List ℕ → Option (ℕ × List ℕ)
  | b :: r => if 128 ≤ b ∧ b < 192 then some (b - 128, r) else none
  | [] => none

/-- Decode one scalar value from the front of a UTF-8 byte stream.  Overlong
forms, surrogates and out-of-range values are rejected, matching CPython's
strict decoder. -/
def decodeOne : List ℕ → Option (ℕ × List ℕ)
  | [] => none
  | b0 :: tl =>
    if b0 < 128 then some (b0, tl)
    else if b0 < 194 then none
    else if b0 < 224 then
      match contByte tl with
      | some (c1, r1) => some ((b0 - 192) * 64 + c1, r1)
      | none => none
    else if b0 < 240 then
      match contByte tl with
      | some (c1, r1) =>
        match contByte r1 with
        | some (c2, r2) =>
          let v := (b0 - 224) * 4096 + c1 * 64 + c2
          if 2048 ≤ v ∧ ¬(55296 ≤ v ∧ v < 57344) then some (v, r2) else none
        | none => none
      | none => none
    else if b0 < 245 then
      match contByte tl with
      | some (c1, r1) =>
        match contByte r1 with
        | some (c2, r2) =>
          match contByte r2 with
          | some (c3, r3) =>
            let v := (b0 - 240) * 262144 + c1 * 4096 + c2 * 64 + c3
            if 65536 ≤ v ∧ v < 1114112 then some (v, r3) else none
          | none => none
        | none => none
      | none => none
    else none

/-- Fuelled decoding loop.  The fuel only serves Lean's termination checker;
`utf8Decode` supplies enough fuel for the whole stream. -/
def utf8DecodeAux : ℕ → List ℕ → Option (List Char)
  | _, [] => some []
  | 0, _ :: _ => none
  | fuel + 1, b0 :: tl =>
    match decodeOne (b0 :: tl) with
    | some (v, rest) => (utf8DecodeAux fuel rest).map (fun cs => Char.ofNat v :: cs)
    | none => none

/-- Strict UTF-8 decoding (`bytes.decode('utf-8')`); `none` models
`UnicodeDecodeError`. -/
def utf8Decode (l : List ℕ) : Option (List Char) := utf8DecodeAux l.length l

theorem decodeOne_encodeChar_append (c : Char) (bs : List ℕ) :
    decodeOne (utf8EncodeChar c ++ bs) = some (c.toNat, bs) := by
  have hvalid : c.toNat < 55296 ∨ (57343 < c.toNat ∧ c.toNat < 1114112) := c.valid
  set v := c.toNat with hv
  by_cases h1 : v < 128
  · rw [utf8EncodeChar]
    simp only [← hv, if_pos h1, List.singleton_append, decodeOne, if_pos h1]
  · by_cases h2 : v < 2048
    · rw [utf8EncodeChar]
      simp only [← hv, if_neg h1, if_pos h2, List.cons_append, List.nil_append]
      have hc1 : contByte ((128 + v % 64) :: bs) = some (128 + v % 64 - 128, bs) := by
        rw [contByte, if_pos (by omega)]
      rw [decodeOne, if_neg (by omega), if_neg (by omega), if_pos (by omega)]
      simp only [hc1]
      have hval : (192 + v / 64 - 192) * 64 + (128 + v % 64 - 128) = v := by omega
      rw [hval]
    · by_cases h3 : v < 65536
      · rw [utf8EncodeChar]
        simp only [← hv, if_neg h1, if_neg h2, if_pos h3, List.cons_append, List.nil_append]
        have hc1 : contByte ((128 + v / 64 % 64) :: (128 + v % 64) :: bs)
            = some (128 + v / 64 % 64 - 128, (128 + v % 64) :: bs) := by
          rw [contByte, if_pos (by omega)]
        have hc2 : contByte ((128 + v % 64) :: bs) = some (128 + v % 64 - 128, bs) := by
          rw [contByte, if_pos (by omega)]
        rw [decodeOne, if_neg (by omega), if_neg (by omega), if_neg (by omega),
          if_pos (by omega)]
        simp only [hc1, hc2]
        have hval : (224 + v / 4096 - 224) * 4096 + (128 + v / 64 % 64 - 128) * 64 +
            (128 + v % 64 - 128) = v := by omega
        simp only [hval]
        rw [if_pos (by omega)]
      · rw [utf8EncodeChar]
        simp only [← hv, if_neg h1, if_neg h2, if_neg h3, List.cons_append, List.nil_append]
        have hub : v < 1114112 := by omega
        have hc1 : contByte ((128 + v / 4096 % 64) :: (128 + v / 64 % 64) :: (128 + v % 64) :: bs)
            = some (128 + v / 4096 % 64 - 128, (128 + v / 64 % 64) :: (128 + v % 64) :: bs) := by
          rw [contByte, if_pos (by omega)]
        have hc2 : contByte ((128 + v / 64 % 64) :: (128 + v % 64) :: bs)
            = some (128 + v / 64 % 64 - 128, (128 + v % 64) :: bs) := by
          rw [contByte, if_pos (by omega)]
        have hc3 : contByte ((128 + v % 64) :: bs) = some (128 + v % 64 - 128, bs) := by
          rw [contByte, if_pos (by omega)]
        rw [decodeOne, if_neg (by omega), if_neg (by omega), if_neg (by omega),
          if_neg (by omega), if_pos (by omega)]
        simp only [hc1, hc2, hc3]
        have hval : (240 + v / 262144 - 240) * 262144 + (128 + v / 4096 % 64 - 128) * 4096 +
            (128 + v / 64 % 64 - 128) * 64 + (128 + v % 64 - 128) = v := by omega
        simp only [hval]
        rw [if_pos (by omega)]

theorem utf8EncodeChar_ne_nil (c : Char) : utf8EncodeChar c ≠ [] := by
  rw [utf8EncodeChar]
  split_ifs <;> simp

theorem utf8DecodeAux_encode (cs : List Char) :
    ∀ fuel, (utf8Encode cs).length ≤ fuel → utf8DecodeAux fuel (utf8Encode cs) = some cs := by
  induction cs with
  | nil => intro fuel _; cases fuel <;> rfl
  | cons c cs ih =>
    intro fuel hfuel
    obtain ⟨b0, tl, henc⟩ : ∃ b0 tl, utf8EncodeChar c = b0 :: tl := by
      cases h : utf8EncodeChar c with
      | nil => exact absurd h (utf8EncodeChar_ne_nil c)
      | cons b0 tl => exact ⟨b0, tl, rfl⟩
    have hlen : (utf8Encode cs).length + 1 ≤ fuel := by
      rw [utf8Encode, List.length_append, henc] at hfuel
      simp only [List.length_cons] at hfuel
      omega
    obtain ⟨f, rfl⟩ : ∃ f, fuel = f + 1 := ⟨fuel - 1, by omega⟩
    have hlist : utf8Encode (c :: cs) = b0 :: (tl ++ utf8Encode cs) := by
      rw [utf8Encode, henc, List.cons_append]
    rw [hlist, utf8DecodeAux]
    have hdec : decodeOne (b0 :: (tl ++ utf8Encode cs)) = some (c.toNat, utf8Encode cs) := by
      rw [← List.cons_append, ← henc, decodeOne_encodeChar_append]
    rw [hdec]
    simp only [ih f (by omega), Char.ofNat_toNat, Option.map_some']

/-- The UTF-8 codec round-trips on every character sequence. -/
theorem utf8Decode_utf8Encode (cs : List Char) : utf8Decode (utf8Encode cs) = some cs :=
  utf8DecodeAux_encode cs _ le_rfl

/-! ## SHA-256 (`hashlib.sha256(...).digest()`)

An executable implementation of FIPS 180-4 SHA-256 over byte lists, used by
the hash-based fallback embedding.  32-bit words are naturals reduced mod
`2^32`. -/

/-- Right-rotation of a 32-bit word by `n` bits. -/
def rotr32 (x n : ℕ) : ℕ := x / 2 ^ n + x % 2 ^ n * 2 ^ (32 - n)

/-- Addition mod `2^32`. -/
def add32 (a b : ℕ) : ℕ := (a + b) % 4294967296

/-- Bitwise complement of a 32-bit word. -/
def not32 (x : ℕ) : ℕ := 4294967295 - x

def bigS0 (x : ℕ) : ℕ := rotr32 x 2 ^^^ rotr32 x 13 ^^^ rotr32 x 22

def bigS1 (x : ℕ) : ℕ := rotr32 x 6 ^^^ rotr32 x 11 ^^^ rotr32 x 25

def smallS0 (x : ℕ) : ℕ := rotr32 x 7 ^^^ rotr32 x 18 ^^^ x / 2 ^ 3

def smallS1 (x : ℕ) : ℕ := rotr32 x 17 ^^^ rotr32 x 19 ^^^ x / 2 ^ 10

def chF (x y z : ℕ) : ℕ := x &&& y ^^^ not32 x &&& z

def majF (x y z : ℕ) : ℕ := x &&& y ^^^ x &&& z ^^^ y &&& z

/-- The 64 SHA-256 round constants. -/
def K64 : List ℕ :=
  [1116352408, 1899447441, 3049323471, 3921009573, 961987163, 1508970993, 2453635748, 2870763221,
   3624381080, 310598401, 607225278, 1426881987, 1925078388, 2162078206, 2614888103, 3248222580,
   3835390401, 4022224774, 264347078, 604807628, 770255983, 1249150122, 1555081692, 1996064986,
   2554220882, 2821834349, 2952996808, 3210313671, 3336571891, 3584528711, 113926993, 338241895,
   666307205, 773529912, 1294757372, 1396182291, 1695183700, 1986661051, 2177026350, 2456956037,
   2730485921, 2820302411, 3259730800, 3345764771, 3516065817, 3600352804, 4094571909, 275423344,
   430227734, 506948616, 659060556, 883997877, 958139571, 1322822218, 1537002063, 1747873779,
   1955562222, 2024104815, 2227730452, 2361852424, 2428436474, 2756734187, 3204031479,
   3329325298]

/-- The eight 32-bit working variables of the SHA-256 state. -/
structure Hash8 where
  a : ℕ
  b : ℕ
  c : ℕ
  d : ℕ
  e : ℕ
  f : ℕ
  g : ℕ
  h : ℕ

/-- SHA-256 initial hash value. -/
def initH : Hash8 :=
  ⟨1779033703, 3144134277, 1013904242, 2773480762, 1359893119, 2600822924, 528734635, 1541459225⟩

/-- Big-endian bytes of `n`, `k` bytes wide (truncating above `2^(8k)`). -/
def toBytesBE : ℕ → ℕ → List ℕ
  | 0, _ => []
  | k + 1, n => toBytesBE k (n / 256) ++ [n % 256]

/-- Group bytes into big-endian 32-bit words. -/
def bytesToWords : List ℕ → List ℕ
  | b0 :: b1 :: b2 :: b3 :: rest =>
    (((b0 * 256 + b1) * 256 + b2) * 256 + b3) :: bytesToWords rest
  | _ => []

/-- Extend the 16-word message schedule by `fuel` further words. -/
def extendSchedule : ℕ → List ℕ → List ℕ
  | 0, w => w
  | fuel + 1, w =>
    let n := w.length
    let next := add32 (add32 (smallS1 (w.getD (n - 2) 0)) (w.getD (n - 7) 0))
      (add32 (smallS0 (w.getD (n - 15) 0)) (w.getD (n - 16) 0))
    extendSchedule fuel (w ++ [next])

/-- One SHA-256 compression round. -/
def sha256Round (st : Hash8) (kw w : ℕ) : Hash8 :=
  let t1 := add32 st.h (add32 (bigS1 st.e) (add32 (chF st.e st.f st.g) (add32 kw w)))
  let t2 := add32 (bigS0 st.a) (majF st.a st.b st.c)
  ⟨add32 t1 t2, st.a, st.b, st.c, add32 st.d t1, st.e, st.f, st.g⟩

/-- Process one 64-byte block. -/
def processBlock (st : Hash8) (block : List ℕ) : Hash8 :=
  let w := extendSchedule 48 (bytesToWords block)
  let fin := (K64.zip w).foldl (fun s p => sha256Round s p.1 p.2) st
  ⟨add32 st.a fin.a, add32 st.b fin.b, add32 st.c fin.c, add32 st.d fin.d, add32 st.e fin.e,
   add32 st.f fin.f, add32 st.g fin.g, add32 st.h fin.h⟩

/-- SHA-256 padding: append `0x80`, zero bytes to 56 mod 64, then the 64-bit
big-endian bit length. -/
def sha256Pad (msg : List ℕ) : List ℕ :=
  let padLen := (64 + 56 - (msg.length + 1) % 64) % 64
  msg ++ [128] ++ List.replicate padLen 0 ++ toBytesBE 8 (msg.length * 8)

/-- Split into 64-byte chunks (fuel bounds the recursion). -/
def chunks64 : ℕ → List ℕ → List (List ℕ)
  | 0, _ => []
  | _ + 1, [] => []
  | fuel + 1, bs => bs.take 64 :: chunks64 fuel (bs.drop 64)

/-- The SHA-256 digest (32 bytes) of a byte string
(`hashlib.sha256(bytes).digest()`). -/
def sha256Bytes (msg : List ℕ) : List ℕ :=
  let padded := sha256Pad msg
  let fin := (chunks64 padded.length padded).foldl processBlock initH
  toBytesBE 4 fin.a ++ toBytesBE 4 fin.b ++ toBytesBE 4 fin.c ++ toBytesBE 4 fin.d ++
    toBytesBE 4 fin.e ++ toBytesBE 4 fin.f ++ toBytesBE 4 fin.g ++ toBytesBE 4 fin.h

theorem toBytesBE_length (k n : ℕ) : (toBytesBE k n).length = k := by
  induction k generalizing n with
  | zero => rfl
  | succ k ih => rw [toBytesBE, List.length_append, ih]; rfl

/-- The digest always has exactly 32 bytes. -/
theorem sha256Bytes_length (msg : List ℕ) : (sha256Bytes msg).length = 32 := by
  rw [sha256Bytes]
  simp only [List.length_append, toBytesBE_length]

/-! ## The zlib codec (`zlib.compress` / `zlib.decompress`)

zlib is an external library; it is embedded abstractly as any pair of byte
functions satisfying its documented lossless round-trip contract.  The
compression level (the source uses `level=9`) does not affect that
contract. -/

/-- An implementation of zlib: a lossless byte compressor. -/
structure Zlib where
  compress : List ℕ → List ℕ
  decompress : List ℕ → List ℕ
  roundtrip : ∀ bs : List ℕ, decompress (compress bs) = bs

/-- `DiffMemManager._compress_content`:
`zlib.compress(content.encode('utf-8'), level=9)`. -/
def compressContent (z : Zlib) (content : String) : List ℕ :=
  z.compress (utf8Encode content.data)

/-- `DiffMemManager._decompress_content`:
`zlib.decompress(compressed).decode('utf-8')`; `none` models a decoding
exception. -/
def decompressContent (z : Zlib) (compressed : List ℕ) : Option String :=
  (utf8Decode (z.decompress compressed)).map (fun cs => String.mk cs)

/-! ## Embeddings and similarity -/

/-- Hash-based fallback embedding: the SHA-256 digest of the UTF-8 encoded
text, reinterpreted byte-wise as a float vector and divided by its L2 norm
(`np.linalg.norm`).  In the model, division by a zero norm yields the zero
vector (numpy would yield NaNs; no input with an all-zero digest is known). -/
noncomputable def hashEmbedding (text : String) : List ℝ :=
  let bs := sha256Bytes (utf8Encode text.data)
  let n := Real.sqrt ((bs.map (fun (b : ℕ) => ((b : ℝ)) ^ 2)).sum)
  bs.map (fun (b : ℕ) => (b : ℝ) / n)

/-- Dot product of two equal-length float vectors.  The truncating `zipWith`
is the exact numpy dot product only on equal lengths; every call site
enforces that shape first — `cosineShapeOk`/`npRowsOk` model the
`ValueError`s of `check_pairwise_arrays` and `np.array` in retrieval, and
DBSCAN compares rows of one homogeneous matrix. -/
def dotl (u v : List ℝ) : ℝ := (List.zipWith (· * ·) u v).sum

/-- Euclidean (L2) norm. -/
noncomputable def l2norm (u : List ℝ) : ℝ := Real.sqrt (dotl u u)

/-- The norm used by sklearn's `normalize`: zero-norm rows are left unscaled,
i.e. treated as having norm 1. -/
noncomputable def nrm (u : List ℝ) : ℝ := if l2norm u = 0 then 1 else l2norm u

/-- `sklearn.metrics.pairwise.cosine_similarity` of two rows of equal
length; the library's shape check that guards this computation is modelled
separately (`cosineShapeOk`, `npRowsOk`). -/
noncomputable def ncos (u v : List ℝ) : ℝ := dotl u v / (nrm u * nrm v)

/-- Cosine distance, the metric DBSCAN is run with. -/
noncomputable def cosDist (u v : List ℝ) : ℝ := 1 - ncos u v

/-- The retrieval score of a candidate with similarity `sim` and importance
`imp`: `similarities[i] * (1 + np.log1p(memory.importance))`. -/
noncomputable def scoreOf (sim imp : ℝ) : ℝ := sim * (1 + Real.log (1 + imp))

/-! ## Data model -/

/-- `MemoryEntry` (a Python dataclass). -/
structure MemoryEntry where
  content : String
  timestamp : ℝ
  importance : ℝ
  access_count : ℕ
  last_accessed : ℝ
  embedding : Option (List ℝ)
  tags : List String
  source : String
  compressed : Bool

/-- One committed ledger record: the JSON file written by `_save_to_git_sync`
together with its Git commit.  Only the fields the claims touch are kept; the
commit message's human-readable timestamp rendering is elided (the `message`
field keeps the provenance source). -/
structure LedgerRecord where
  filename : ℤ
  message : String
  content : String
  compressed : Bool

/-- The mutable state of a `DiffMemManager`: the in-memory index, the Git
ledger, the construction-time flags, and the optionally loaded
sentence-transformers model (whose `encode` may raise, modelled by
`Except`). -/
structure DMState where
  memories : List MemoryEntry
  ledger : List LedgerRecord
  compression_enabled : Bool
  embeddings_available : Bool
  embedding_model : Option (String → Except String (List ℝ))

/-- `_generate_embedding`: use the loaded model when present; on a raised
exception from `encode` (or no model) fall back to the hash embedding. -/
noncomputable def generateEmbedding (s : DMState) (text : String) : List ℝ :=
  match s.embedding_model with
  | some enc =>
    match enc text with
    | .ok v => v
    | .error _ => hashEmbedding text
  | none => hashEmbedding text

/-- Python `int()` truncation toward zero. -/
noncomputable def pyInt (x : ℝ) : ℤ := if 0 ≤ x then ⌊x⌋ else -⌊-x⌋

/-- The lowercase hex digit for a nibble (ASCII arithmetic). -/
def hexDigitChar (n : ℕ) : Char :=
  if n < 10 then Char.ofNat (48 + n) else Char.ofNat (87 + n)

/-- `bytes.hex()`. -/
def bytesHex (bs : List ℕ) : String :=
  String.mk (bs.foldr (fun b acc => hexDigitChar (b / 16) :: hexDigitChar (b % 16) :: acc) [])

/-! ## Store operations -/

/-- The `try` body of `_save_to_git_sync`: serialize the entry (compressing
large content to hex when enabled) and append the record and its commit to
the ledger.  `gitOk = false` models an I/O or Git failure anywhere in the
body (`.error` = the raised exception). -/
noncomputable def saveToGitInner (z : Zlib) (gitOk : Bool) (s : DMState) (memory : MemoryEntry) :
    Except String DMState :=
  if gitOk then
    let compressBig := s.compression_enabled && decide (1024 < memory.content.length)
    let dataContent :=
      if compressBig then bytesHex (compressContent z memory.content) else memory.content
    let record : LedgerRecord :=
      { filename := pyInt (memory.timestamp * 1000), message := memory.source,
        content := dataContent, compressed := compressBig || memory.compressed }
    .ok { s with ledger := s.ledger ++ [record] }
  else .error "GitCommandError"

/-- `_save_to_git_sync`: the inner body runs under the Git lock inside
`try/except`; any exception is logged and swallowed, leaving the ledger
unchanged. -/
noncomputable def saveToGitSync (z : Zlib) (gitOk : Bool) (s : DMState) (memory : MemoryEntry) : DMState :=
  match saveToGitInner z gitOk s memory with
  | .ok s' => s'
  | .error _ => s

/-- `add_memory(content, importance, tags, source)` at wall-clock time `now`.
`tags` is the `tags or []` value.  The embedding is generated first, the
entry (with importance clamped to [0, 10]) is appended to the live index,
then the entry is committed to the ledger (best-effort). -/
noncomputable def addMemory (z : Zlib) (now : ℝ) (gitOk : Bool) (s : DMState) (content : String)
    (importance : ℝ) (tags : List String) (source : String) :
    Except String (MemoryEntry × DMState) :=
  let embedding := generateEmbedding s content
  let memory : MemoryEntry :=
    { content := content, timestamp := now, importance := min (max importance 0) 10,
      access_count := 0, last_accessed := now, embedding := some embedding, tags := tags,
      source := source, compressed := false }
  let s1 := { s with memories := s.memories ++ [memory] }
  let s2 := saveToGitSync z gitOk s1 memory
  .ok (memory, s2)

/-- Python truthiness of the `embedding` field (`if m.embedding`): `None` and
the empty list are falsy. -/
def embPresent : Option (List ℝ) → Bool
  | none => false
  | some [] => false
  | some (_ :: _) => true

/-- The rows of `memory_embs = np.array([m.embedding for m in self.memories
if m.embedding])`. -/
def candEmbs (s : DMState) : List (List ℝ) :=
  (s.memories.filter (fun m => embPresent m.embedding)).map (fun m => m.embedding.getD [])

/-- `np.array` succeeds on a list of rows only when they are homogeneous; a
ragged row list raises `ValueError` (modelled as this check failing). -/
def npRowsOk (rows : List (List ℝ)) : Bool :=
  rows.all (fun r => r.length == (rows.headD []).length)

/-- The shape check of sklearn's `check_pairwise_arrays`: a `1×d` query row
against an `n×D` candidate matrix raises `ValueError` unless `d = D`. -/
def cosineShapeOk (q : List ℝ) (rows : List (List ℝ)) : Bool :=
  rows.all (fun r => r.length == q.length)

/-- The row `cosine_similarity(query_emb, memory_embs)[0]` computed by
sklearn once the shape checks passed. -/
noncomputable def simsOf (s : DMState) (query : String) : List ℝ :=
  (candEmbs s).map (fun e => ncos (generateEmbedding s query) e)

/-- The `scored_memories` loop: each entry of the full index passing the
importance filter is paired with `similarities[i] * (1 + log1p(importance))`,
`i` being its index in the full index.  Entries are represented by index (the
Python list holds object references; indices are unambiguous).  Reading
`similarities[i]` out of bounds is Python's `IndexError`, modelled by
`.error`. -/
noncomputable def buildScored (sims : List ℝ) (minImp : ℝ) : ℕ → List MemoryEntry →
    Except String (List (ℝ × ℕ))
  | _, [] => .ok []
  | i, m :: rest =>
    if minImp ≤ m.importance then
      match sims.get? i with
      | some v => (buildScored sims minImp (i + 1) rest).map
          (fun l => (scoreOf v m.importance, i) :: l)
      | none => .error "IndexError"
    else buildScored sims minImp (i + 1) rest

noncomputable def scoredOf (s : DMState) (query : String) (minImp : ℝ) :
    Except String (List (ℝ × ℕ)) :=
  buildScored (simsOf s query) minImp 0 s.memories

/-- `scored_memories.sort(reverse=True, key=lambda x: x[0])` sorts stably in
descending score order; this is the comparison relation. -/
def scoreGE (x y : ℝ × ℕ) : Prop := y.1 ≤ x.1

noncomputable instance : DecidableRel scoreGE := fun x y => by
  unfold scoreGE; infer_instance

instance : IsTotal (ℝ × ℕ) scoreGE := ⟨fun x y => le_total y.1 x.1⟩

instance : IsTrans (ℝ × ℕ) scoreGE := ⟨fun _ _ _ h1 h2 => le_trans h2 h1⟩

/-- Python slicing `l[:k]` (a negative `k` counts from the end). -/
def pySlice {α : Type} (k : ℤ) (l : List α) : List α :=
  if 0 ≤ k then l.take k.toNat else l.take (l.length - (-k).toNat)

/-- The access-statistics side effect on a returned entry:
`memory.access_count += 1; memory.last_accessed = time.time()`. -/
def bumpAccess (now : ℝ) (m : MemoryEntry) : MemoryEntry :=
  { m with access_count := m.access_count + 1, last_accessed := now }

/-- The tail of `retrieve_memories` after the scoring loop succeeded: stable
sort descending by score, slice `[:top_k]`, bump the access statistics of the
picked entries (identified by index), and return them with the updated
state. -/
noncomputable def retrieveResult (now : ℝ) (s : DMState) (top_k : ℤ)
    (scored : List (ℝ × ℕ)) : List MemoryEntry × DMState :=
  let sorted := List.insertionSort scoreGE scored
  let topIdx := (pySlice top_k sorted).map Prod.snd
  let memories' := s.memories.enum.map (fun p =>
    if p.1 ∈ topIdx then bumpAccess now p.2 else p.2)
  let top := topIdx.filterMap (fun i => memories'.get? i)
  (top, { s with memories := memories' })

/-- `retrieve_memories(query, top_k, min_importance)` at wall-clock time
`now`: after the empty-store early return, `np.array` over the filtered
embeddings raises on ragged rows (`npRowsOk`), the empty candidate matrix
returns `[]`, `cosine_similarity` raises on a query/matrix dimension
mismatch (`cosineShapeOk`), then every importance-qualifying entry of the
full index is scored (see `buildScored`) and ranked via `retrieveResult`. -/
noncomputable def retrieveMemories (now : ℝ) (s : DMState) (query : String) (top_k : ℤ)
    (min_importance : ℝ) : Except String (List MemoryEntry × DMState) :=
  if s.memories.isEmpty then .ok ([], s)
  else if npRowsOk (candEmbs s) = false then
    .error "ValueError: inhomogeneous embedding matrix"
  else if (candEmbs s).length = 0 then .ok ([], s)
  else if cosineShapeOk (generateEmbedding s query) (candEmbs s) = false then
    .error "ValueError: incompatible dimension for X and Y matrices"
  else
    match scoredOf s query min_importance with
    | .error e => .error e
    | .ok scored => .ok (retrieveResult now s top_k scored)

/-! ## DBSCAN clustering (`sklearn.cluster.DBSCAN(metric='cosine')`) -/

/-- Indices within cosine distance `eps` of point `i` (including `i`). -/
noncomputable def neighborsOf (pts : List (List ℝ)) (eps : ℝ) (i : ℕ) : List ℕ :=
  (List.range pts.length).filter (fun j => decide (cosDist (pts.getD i []) (pts.getD j []) ≤ eps))

/-- A core point has at least `min_samples` neighbors (itself included). -/
noncomputable def isCore (pts : List (List ℝ)) (eps : ℝ) (min_samples : ℕ) (i : ℕ) : Bool :=
  decide (min_samples ≤ (neighborsOf pts eps i).length)

/-- DBSCAN cluster expansion from a seed stack: pop a point, label it if
unlabeled, and if it is a core point push its unlabeled neighbors.  The fuel
only serves termination; `dbscanLabels` supplies enough for the whole run. -/
def expandCluster (core : ℕ → Bool) (nbrs : ℕ → List ℕ) :
    ℕ → ℤ → List ℕ → List ℤ → List ℤ
  | 0, _, _, labels => labels
  | _ + 1, _, [], labels => labels
  | fuel + 1, lab, j :: stack, labels =>
    if labels.getD j (-1) = -1 then
      let labels' := labels.set j lab
      if core j then
        expandCluster core nbrs fuel lab
          ((nbrs j).filter (fun k => decide (labels'.getD k (-1) = -1)) ++ stack) labels'
      else expandCluster core nbrs fuel lab stack labels'
    else expandCluster core nbrs fuel lab stack labels

/-- Scan points in index order; each unlabeled core point starts a new
cluster. -/
def dbscanLoop (core : ℕ → Bool) (nbrs : ℕ → List ℕ) (fuel : ℕ) :
    List ℕ → ℤ → List ℤ → List ℤ
  | [], _, labels => labels
  | i :: rest, nextLab, labels =>
    if labels.getD i (-1) = -1 ∧ core i then
      dbscanLoop core nbrs fuel rest (nextLab + 1) (expandCluster core nbrs fuel nextLab [i] labels)
    else dbscanLoop core nbrs fuel rest nextLab labels

/-- `DBSCAN(eps, min_samples, metric='cosine').fit_predict(points)`: cluster
labels (0, 1, ...) with `-1` for noise. -/
noncomputable def dbscanLabels (pts : List (List ℝ)) (eps : ℝ) (min_samples : ℕ) : List ℤ :=
  let n := pts.length
  dbscanLoop (isCore pts eps min_samples) (neighborsOf pts eps) ((n + 1) * (n + 1))
    (List.range n) 0 (List.replicate n (-1))

/-- Append index `i` to the group of label `lab`, creating the group at the
end on first sight (Python dict insertion order). -/
def upsertGroup : List (ℤ × List ℕ) → ℤ → ℕ → List (ℤ × List ℕ)
  | [], lab, i => [(lab, [i])]
  | (l, is) :: rest, lab, i =>
    if l = lab then (l, is ++ [i]) :: rest else (l, is) :: upsertGroup rest lab i

/-- The `clusters` dict of `cluster_memories`: element `i` of the label array
files `self.memories[i]` under its label.  (Note the source indexes the full
`self.memories` with positions of the filtered embedding array.) -/
def groupByLabel (labels : List ℤ) (mems : List MemoryEntry) : List (List MemoryEntry) :=
  (labels.enum.foldl (fun acc p => upsertGroup acc p.2 p.1) []).map
    (fun p => p.2.filterMap (fun i => mems.get? i))

/-- `cluster_memories(eps, min_samples)`. -/
noncomputable def clusterMemories (s : DMState) (eps : ℝ) (min_samples : ℕ) :
    List (List MemoryEntry) :=
  if s.memories.length < min_samples then [s.memories]
  else
    let embeddings := candEmbs s
    if embeddings.length = 0 then [s.memories]
    else groupByLabel (dbscanLabels embeddings eps min_samples) s.memories

/-- `consolidate_memories` at wall-clock time `now`: decay every importance by
`exp(-age_days / 30)` and drop entries at or below the retention threshold
0.1.  The subsequent `cluster_memories` call only feeds a log line and does
not mutate state, so it does not appear in the state transition. -/
noncomputable def consolidateMemories (now : ℝ) (s : DMState) : DMState :=
  if s.memories.isEmpty then s
  else
    let decayed := s.memories.map (fun m =>
      { m with importance := m.importance * Real.exp (-((now - m.timestamp) / 86400 / 30)) })
    { s with memories := decayed.filter (fun m => decide ((0.1 : ℝ) < m.importance)) }

/-- A value in the statistics dictionary. -/
inductive StatVal
  | int (n : ℤ)
  | real (r : ℝ)
  | bool (b : Bool)

/-- `get_stats()`: a read-only aggregate (the model's type, a pure function of
the state, reflects that no entry is modified). -/
noncomputable def getStats (s : DMState) : List (String × StatVal) :=
  if s.memories.isEmpty then
    [("total_memories", .int 0), ("total_size_bytes", .int 0), ("average_importance", .int 0)]
  else
    let totalSize := (s.memories.map (fun m => m.content.length)).sum
    let avg := (s.memories.map (fun m => m.importance)).sum / (s.memories.length : ℝ)
    [("total_memories", .int s.memories.length),
     ("total_size_bytes", .int totalSize),
     ("total_size_mb", .real ((totalSize : ℝ) / (1024 * 1024))),
     ("average_importance", .real avg),
     ("compression_enabled", .bool s.compression_enabled),
     ("embeddings_available", .bool s.embeddings_available)]

/-! ## C6: codec round-trip -/

/-- C6: for every text (in particular every text longer than the 1024-byte
compression threshold) and every zlib implementation meeting the library's
lossless contract, `_decompress_content(_compress_content(text)) == text`. -/
theorem compress_decompress_roundtrip (z : Zlib) (text : String) :
    decompressContent z (compressContent z text) = some text := by
  rw [compressContent, decompressContent, z.roundtrip, utf8Decode_utf8Encode,
    Option.map_some']

/-- A trivial byte-compressor satisfying the zlib contract, used to witness
`compress_decompress_roundtrip` on a concrete input. -/
def idZlib : Zlib := ⟨id, id, fun _ => rfl⟩

theorem compress_decompress_roundtrip_witness :
    decompressContent idZlib (compressContent idZlib "hello, memory") = some "hello, memory" :=
  compress_decompress_roundtrip idZlib "hello, memory"

/-! ## C10: the hash-based fallback embedding -/

theorem dotl_map_self (f : ℕ → ℝ) (l : List ℕ) :
    dotl (l.map f) (l.map f) = (l.map (fun b => f b ^ 2)).sum := by
  induction l with
  | nil => rfl
  | cons b l ih =>
    simp only [List.map_cons, dotl, List.zipWith_cons_cons, List.sum_cons]
    rw [← dotl, ih]
    simp only [pow_two]

/-- Dividing a byte vector with a nonzero entry by its own L2 norm yields a
unit vector. -/
theorem l2norm_unit (bs : List ℕ) (hex : ∃ b ∈ bs, b ≠ 0) :
    l2norm (bs.map (fun (b : ℕ) =>
      (b : ℝ) / Real.sqrt ((bs.map (fun (b : ℕ) => ((b : ℝ)) ^ 2)).sum))) = 1 := by
  have hS_nonneg : 0 ≤ (bs.map (fun (b : ℕ) => ((b : ℝ)) ^ 2)).sum := by
    apply List.sum_nonneg
    intro x hx
    obtain ⟨b, _, rfl⟩ := List.mem_map.mp hx
    positivity
  have hS_pos : 0 < (bs.map (fun (b : ℕ) => ((b : ℝ)) ^ 2)).sum := by
    obtain ⟨b, hb_mem, hb_ne⟩ := hex
    have hmem : ((b : ℝ)) ^ 2 ∈ bs.map (fun (b : ℕ) => ((b : ℝ)) ^ 2) :=
      List.mem_map.mpr ⟨b, hb_mem, rfl⟩
    have hle : ((b : ℝ)) ^ 2 ≤ (bs.map (fun (b : ℕ) => ((b : ℝ)) ^ 2)).sum :=
      List.single_le_sum (fun x hx => by
        obtain ⟨c, _, rfl⟩ := List.mem_map.mp hx; positivity) _ hmem
    have hb_pos : (0 : ℝ) < ((b : ℝ)) ^ 2 := by positivity
    linarith
  set S := (bs.map (fun (b : ℕ) => ((b : ℝ)) ^ 2)).sum with hS
  have hsq : Real.sqrt S ^ 2 = S := Real.sq_sqrt hS_nonneg
  rw [l2norm, dotl_map_self]
  have hmaps : (bs.map fun (b : ℕ) => ((b : ℝ) / Real.sqrt S) ^ 2).sum
      = S * (Real.sqrt S ^ 2)⁻¹ := by
    have hcongr : (bs.map fun (b : ℕ) => ((b : ℝ) / Real.sqrt S) ^ 2)
        = bs.map fun (b : ℕ) => (((b : ℝ)) ^ 2) * (Real.sqrt S ^ 2)⁻¹ := by
      apply List.map_congr_left
      intro b _
      rw [div_pow, div_eq_mul_inv]
    rw [hcongr, ← List.sum_map_mul_right]
  rw [hmaps, hsq, mul_inv_cancel₀ (ne_of_gt hS_pos), Real.sqrt_one]

/-- A state with no loaded sentence-transformers model. -/
def noModelState : DMState :=
  { memories := [], ledger := [], compression_enabled := true, embeddings_available := false,
    embedding_model := none }

/-- C10: with no model loaded, `_generate_embedding` is the pure hash-based
fallback; it is deterministic (equal texts give equal vectors), always
returns a 32-dimensional vector (the SHA-256 digest length), and — whenever
the digest is not identically zero, which holds for every known input — the
vector has L2 norm 1. -/
theorem hash_fallback_embedding (s : DMState) (t t' : String)
    (hmodel : s.embedding_model = none) (ht : t = t')
    (hnz : sha256Bytes (utf8Encode t.data) ≠ List.replicate 32 0) :
    generateEmbedding s t = hashEmbedding t ∧
    hashEmbedding t = hashEmbedding t' ∧
    (hashEmbedding t).length = 32 ∧
    l2norm (hashEmbedding t) = 1 := by
  refine ⟨by rw [generateEmbedding, hmodel], by rw [ht], ?_, ?_⟩
  · simp only [hashEmbedding, List.length_map, sha256Bytes_length]
  · have hex : ∃ b ∈ sha256Bytes (utf8Encode t.data), b ≠ 0 := by
      by_contra hall
      push_neg at hall
      exact hnz (List.eq_replicate_iff.mpr ⟨sha256Bytes_length _, hall⟩)
    simpa only [hashEmbedding] using l2norm_unit (sha256Bytes (utf8Encode t.data)) hex

theorem hash_fallback_embedding_witness :
    generateEmbedding noModelState "" = hashEmbedding "" ∧
    hashEmbedding "" = hashEmbedding "" ∧
    (hashEmbedding "").length = 32 ∧
    l2norm (hashEmbedding "") = 1 :=
  hash_fallback_embedding noModelState "" "" rfl rfl (by decide)

/-! ## C5: consolidation prunes by the retention threshold, never the ledger -/

/-- C5: after `consolidate_memories` (at any wall-clock time and from any
state), every entry remaining in the live index has importance strictly above
the retention threshold 0.1, and the ledger is untouched — pruning removes
entries only from the in-memory index. -/
theorem consolidate_prunes_not_ledger (now : ℝ) (s : DMState) :
    (∀ m ∈ (consolidateMemories now s).memories, (0.1 : ℝ) < m.importance) ∧
    (consolidateMemories now s).ledger = s.ledger := by
  constructor
  · intro m hm
    rw [consolidateMemories] at hm
    by_cases hemp : s.memories.isEmpty
    · rw [if_pos hemp] at hm
      rw [List.isEmpty_iff.mp hemp] at hm
      exact absurd hm (List.not_mem_nil m)
    · rw [if_neg hemp] at hm
      have := List.of_mem_filter hm
      exact of_decide_eq_true this
  · rw [consolidateMemories]
    split_ifs <;> rfl

/-- A one-entry store used as concrete input for several witnesses. -/
def entryA : MemoryEntry :=
  { content := "alpha", timestamp := 0, importance := 5, access_count := 0, last_accessed := 0,
    embedding := some [1, 0], tags := [], source := "test", compressed := false }

def oneEntryState : DMState :=
  { memories := [entryA], ledger := [], compression_enabled := true,
    embeddings_available := false, embedding_model := none }

theorem consolidate_prunes_not_ledger_witness :
    (0.1 : ℝ) < ({ entryA with
        importance := entryA.importance *
          Real.exp (-((0 - entryA.timestamp) / 86400 / 30)) } : MemoryEntry).importance ∧
    (consolidateMemories 0 oneEntryState).ledger = oneEntryState.ledger := by
  have h := consolidate_prunes_not_ledger 0 oneEntryState
  refine ⟨h.1 _ ?_, h.2⟩
  rw [consolidateMemories, if_neg (by decide)]
  apply List.mem_filter.mpr
  constructor
  · simp only [oneEntryState, List.map_cons, List.map_nil]
    exact List.mem_singleton.mpr rfl
  · apply decide_eq_true
    show (0.1 : ℝ) < entryA.importance * Real.exp (-((0 - entryA.timestamp) / 86400 / 30))
    have : -((0 - entryA.timestamp) / 86400 / 30) = 0 := by
      show -((0 - (0 : ℝ)) / 86400 / 30) = 0
      norm_num
    rw [this, Real.exp_zero]
    show (0.1 : ℝ) < 5 * 1
    norm_num

/-! ## C4: importance stays clamped to [0, 10] -/

theorem saveToGitSync_memories (z : Zlib) (g : Bool) (s : DMState) (m : MemoryEntry) :
    (saveToGitSync z g s m).memories = s.memories := by
  cases g <;> rfl

/-- Every live entry's importance lies in [0, 10]. -/
def impInRange (s : DMState) : Prop := ∀ m ∈ s.memories, 0 ≤ m.importance ∧ m.importance ≤ 10

/-- C4: `add_memory` clamps the requested importance to
`min(max(x, 0.0), 10.0)` (hence into [0, 10]) and preserves the range
invariant; `retrieve_memories` (which only bumps access statistics) and
`consolidate_memories` (run at a time no earlier than each entry's creation)
also keep every live importance inside [0, 10]. -/
theorem importance_clamp_and_invariant :
    (∀ (z : Zlib) (now : ℝ) (gitOk : Bool) (s : DMState) (content : String) (x : ℝ)
        (tags : List String) (source : String) (m : MemoryEntry) (s' : DMState),
        addMemory z now gitOk s content x tags source = .ok (m, s') →
        m.importance = min (max x 0) 10 ∧ 0 ≤ m.importance ∧ m.importance ≤ 10 ∧
          (impInRange s → impInRange s')) ∧
    (∀ (now : ℝ) (s : DMState) (query : String) (k : ℤ) (minImp : ℝ)
        (res : List MemoryEntry) (s' : DMState),
        retrieveMemories now s query k minImp = .ok (res, s') →
        impInRange s → impInRange s') ∧
    (∀ (now : ℝ) (s : DMState), impInRange s → (∀ m ∈ s.memories, m.timestamp ≤ now) →
        impInRange (consolidateMemories now s)) := by
  refine ⟨?_, ?_, ?_⟩
  · intro z now gitOk s content x tags source m s' h
    rw [addMemory] at h
    simp only [Except.ok.injEq, Prod.mk.injEq] at h
    obtain ⟨hm, hs'⟩ := h
    have himp : m.importance = min (max x 0) 10 := by rw [← hm]
    refine ⟨himp, ?_, ?_, ?_⟩
    · rw [himp]
      exact le_min (le_max_right x 0) (by norm_num)
    · rw [himp]
      exact min_le_right _ _
    · intro hinv m' hm'
      rw [← hs', saveToGitSync_memories] at hm'
      rcases List.mem_append.mp hm' with hold | hnew
      · exact hinv m' hold
      · have : m' = m := by rw [List.mem_singleton.mp hnew, hm]
        rw [this, himp]
        exact ⟨le_min (le_max_right x 0) (by norm_num), min_le_right _ _⟩
  · intro now s query k minImp res s' h hinv
    rw [retrieveMemories] at h
    by_cases h1 : s.memories.isEmpty
    · rw [if_pos h1] at h
      simp only [Except.ok.injEq, Prod.mk.injEq] at h
      rw [← h.2]
      exact hinv
    · rw [if_neg h1] at h
      by_cases hrag : npRowsOk (candEmbs s) = false
      · rw [if_pos hrag] at h
        simp at h
      · rw [if_neg hrag] at h
        by_cases h2 : (candEmbs s).length = 0
        · rw [if_pos h2] at h
          simp only [Except.ok.injEq, Prod.mk.injEq] at h
          rw [← h.2]
          exact hinv
        · rw [if_neg h2] at h
          by_cases hdim : cosineShapeOk (generateEmbedding s query) (candEmbs s) = false
          · rw [if_pos hdim] at h
            simp at h
          · rw [if_neg hdim] at h
            cases hsc : scoredOf s query minImp with
            | error e => rw [hsc] at h; simp at h
            | ok scored =>
              rw [hsc] at h
              simp only [Except.ok.injEq] at h
              have hs' : s' = (retrieveResult now s k scored).2 := by rw [h]
              rw [hs']
              simp only [retrieveResult]
              intro m' hm'
              simp only [List.mem_map] at hm'
              obtain ⟨p, hp, rfl⟩ := hm'
              have hmem : p.2 ∈ s.memories := by
                have := List.mem_enum_iff_getElem?.mp hp
                exact List.mem_iff_getElem?.mpr ⟨p.1, this⟩
              have hb := hinv p.2 hmem
              split_ifs <;> exact hb
  · intro now s hinv htime m' hm'
    rw [consolidateMemories] at hm'
    by_cases hemp : s.memories.isEmpty
    · rw [if_pos hemp] at hm'
      exact hinv m' hm'
    · rw [if_neg hemp] at hm'
      have hm'' := List.mem_of_mem_filter hm'
      simp only [List.mem_map] at hm''
      obtain ⟨m0, hm0, rfl⟩ := hm''
      obtain ⟨hge, hle⟩ := hinv m0 hm0
      have hexp_pos : 0 < Real.exp (-((now - m0.timestamp) / 86400 / 30)) := Real.exp_pos _
      have hexp_le : Real.exp (-((now - m0.timestamp) / 86400 / 30)) ≤ 1 := by
        rw [Real.exp_le_one_iff]
        have hts := htime m0 hm0
        have h0 : 0 ≤ (now - m0.timestamp) / 86400 / 30 :=
          div_nonneg (div_nonneg (by linarith) (by norm_num)) (by norm_num)
        linarith
      constructor
      · exact mul_nonneg hge hexp_pos.le
      · calc m0.importance * Real.exp (-((now - m0.timestamp) / 86400 / 30))
            ≤ m0.importance * 1 := by
              exact mul_le_mul_of_nonneg_left hexp_le hge
          _ = m0.importance := mul_one _
          _ ≤ 10 := hle

/-- A state with a loaded embedding model that always returns `[1, 0]`. -/
def modelState : DMState :=
  { memories := [], ledger := [], compression_enabled := true, embeddings_available := true,
    embedding_model := some (fun _ => .ok [1, 0]) }

def wAddEntry : MemoryEntry :=
  { content := "x", timestamp := 0, importance := min (max 12 0) 10, access_count := 0,
    last_accessed := 0, embedding := some [1, 0], tags := [], source := "w", compressed := false }

theorem importance_clamp_and_invariant_witness :
    (wAddEntry.importance = min (max (12 : ℝ) 0) 10 ∧ 0 ≤ wAddEntry.importance ∧
      wAddEntry.importance ≤ 10 ∧
      (impInRange modelState → impInRange { modelState with memories := [wAddEntry] })) ∧
    impInRange noModelState ∧
    impInRange (consolidateMemories 0 noModelState) := by
  have h := importance_clamp_and_invariant
  refine ⟨h.1 idZlib 0 false modelState "x" 12 [] "w" wAddEntry _ rfl, ?_, ?_⟩
  · exact h.2.1 0 noModelState "q" 5 0 [] noModelState rfl
      (fun m hm => absurd hm (List.not_mem_nil m))
  · exact h.2.2 0 noModelState (fun m hm => absurd hm (List.not_mem_nil m))
      (fun m hm => absurd hm (List.not_mem_nil m))

/-! ## C7: graceful degradation of append and retrieval -/

theorem candEmbs_of_all_present (s : DMState)
    (hall : ∀ m ∈ s.memories, embPresent m.embedding = true) :
    candEmbs s = s.memories.map (fun m => m.embedding.getD []) := by
  rw [candEmbs, List.filter_eq_self.mpr hall]

theorem buildScored_isOk (sims : List ℝ) (minImp : ℝ) :
    ∀ (rem : List MemoryEntry) (i : ℕ), i + rem.length ≤ sims.length →
    ∃ L, buildScored sims minImp i rem = .ok L := by
  intro rem
  induction rem with
  | nil => exact fun i _ => ⟨[], rfl⟩
  | cons m rest ih =>
    intro i hlen
    rw [List.length_cons] at hlen
    have hi : i < sims.length := by omega
    obtain ⟨v, hv⟩ : ∃ v, sims.get? i = some v := by
      rw [List.get?_eq_getElem?]
      exact ⟨sims[i], List.getElem?_eq_getElem hi⟩
    obtain ⟨L, hL⟩ := ih (i + 1) (by omega)
    rw [buildScored]
    by_cases hq : minImp ≤ m.importance
    · rw [if_pos hq, hv, hL]
      exact ⟨_, rfl⟩
    · rw [if_neg hq, hL]
      exact ⟨L, rfl⟩

/-- A store built while the 2-dimensional model worked, whose model now
raises on every `encode` call (a transient backend failure at retrieve
time). -/
def dimBugState : DMState :=
  { memories := [entryA], ledger := [], compression_enabled := true,
    embeddings_available := true, embedding_model := some (fun _ => .error "model overloaded") }

/-- C7 counterexample: a transient model failure while embedding the *query*
switches that one call to the 32-dimensional hash fallback; against the
store's model-built 2-dimensional embeddings, `cosine_similarity`'s shape
check raises `ValueError` straight to the caller of `retrieve_memories` —
an exception caused precisely by an embedding-backend failure. -/
theorem retrieve_raises_on_fallback_dimension_mismatch :
    retrieveMemories 0 dimBugState "q" 5 0
      = .error "ValueError: incompatible dimension for X and Y matrices" ∧
    (∃ enc, dimBugState.embedding_model = some enc ∧ enc "q" = .error "model overloaded") ∧
    generateEmbedding dimBugState "q" = hashEmbedding "q" ∧
    (hashEmbedding "q").length = 32 ∧
    entryA.embedding = some [1, 0] := by
  refine ⟨?_, ⟨_, rfl, rfl⟩, rfl,
    by simp only [hashEmbedding, List.length_map, sha256Bytes_length], rfl⟩
  rw [retrieveMemories, if_neg (by decide), if_neg (by decide), if_neg (by decide),
    if_pos (by decide)]

/-- C7 amended: `add_memory` never raises — it returns its entry with the
live index extended even when the ledger commit fails, and a raising model
`encode` is replaced by the hash fallback for that call.  `retrieve_memories`
never touches the ledger, and returns normally under any backend behavior
*provided* the resulting query embedding passes sklearn's shape check
against the stored candidate matrix; when a transient model failure makes
the 32-dimensional fallback query meet a model-dimension store, the
`ValueError` of `cosine_similarity` does reach the caller (see the
counterexample). -/
theorem append_retrieve_degrade_guarded :
    (∀ (z : Zlib) (now : ℝ) (gitOk : Bool) (s : DMState) (content : String) (imp : ℝ)
        (tags : List String) (source : String),
      ∃ m s', addMemory z now gitOk s content imp tags source = .ok (m, s') ∧
        s'.memories = s.memories ++ [m] ∧
        ((s.embedding_model = none ∨
            ∃ enc err, s.embedding_model = some enc ∧ enc content = .error err) →
          m.embedding = some (hashEmbedding content))) ∧
    (∀ (now : ℝ) (s : DMState) (query : String) (k : ℤ) (minImp : ℝ),
      (∀ m ∈ s.memories, embPresent m.embedding = true) →
      npRowsOk (candEmbs s) = true →
      cosineShapeOk (generateEmbedding s query) (candEmbs s) = true →
      ∃ r, retrieveMemories now s query k minImp = .ok r) := by
  constructor
  · intro z now gitOk s content imp tags source
    refine ⟨_, _, rfl, ?_, ?_⟩
    · rw [saveToGitSync_memories]
    · rintro (hnone | ⟨enc, err, henc, herr⟩)
      · show some (generateEmbedding s content) = _
        rw [generateEmbedding, hnone]
      · show some (generateEmbedding s content) = _
        rw [generateEmbedding, henc]
        show some (match enc content with
          | .ok v => v
          | .error _ => hashEmbedding content) = _
        rw [herr]
  · intro now s query k minImp hall hrag hdim
    rw [retrieveMemories]
    by_cases h1 : s.memories.isEmpty
    · rw [if_pos h1]
      exact ⟨_, rfl⟩
    · rw [if_neg h1, if_neg (by rw [hrag]; simp)]
      by_cases h2 : (candEmbs s).length = 0
      · rw [if_pos h2]
        exact ⟨_, rfl⟩
      · rw [if_neg h2, if_neg (by rw [hdim]; simp)]
        have hslen : (simsOf s query).length = s.memories.length := by
          rw [simsOf, List.length_map, candEmbs_of_all_present s hall, List.length_map]
        obtain ⟨L, hL⟩ := buildScored_isOk (simsOf s query) minImp s.memories 0
          (by rw [hslen]; omega)
        rw [scoredOf, hL]
        exact ⟨_, rfl⟩

/-- A store of one model-built 2-dimensional entry whose model is working,
so the shape check passes. -/
def dimOkState : DMState :=
  { memories := [entryA], ledger := [], compression_enabled := true,
    embeddings_available := true, embedding_model := some (fun _ => .ok [1, 0]) }

theorem append_retrieve_degrade_guarded_witness :
    (∃ m s', addMemory idZlib 0 false noModelState "hi" 3 [] "src" = .ok (m, s') ∧
      s'.memories = noModelState.memories ++ [m] ∧
      ((noModelState.embedding_model = none ∨
          ∃ enc err, noModelState.embedding_model = some enc ∧ enc "hi" = .error err) →
        m.embedding = some (hashEmbedding "hi"))) ∧
    (∃ r, retrieveMemories 0 dimOkState "q" 5 0 = .ok r) :=
  ⟨append_retrieve_degrade_guarded.1 idZlib 0 false noModelState "hi" 3 [] "src",
   append_retrieve_degrade_guarded.2 0 dimOkState "q" 5 0 (by decide) (by decide) (by decide)⟩

/-! ## C9: `get_stats` on the empty store omits `compression_enabled`

The empty-store branch of `get_stats` returns only three fields, although the
spec (and the repository's own `test_memory_stats`, which runs on a freshly
constructed manager) requires `compression_enabled` as well. -/

/-- C9 (code bug): on the freshly constructed (empty) store, `get_stats`
returns exactly the three zero fields and no `compression_enabled` key; on a
non-empty store the key is present. -/
theorem getStats_empty_omits_compression_flag :
    getStats noModelState = [("total_memories", .int 0), ("total_size_bytes", .int 0),
      ("average_importance", .int 0)] ∧
    (getStats noModelState).lookup "compression_enabled" = none ∧
    (getStats oneEntryState).lookup "compression_enabled"
      = some (.bool oneEntryState.compression_enabled) := by
  refine ⟨rfl, rfl, rfl⟩

/-! ## C2: entries without embeddings are scored through misaligned indices

`retrieve_memories` builds `memory_embs` (hence `similarities`) only from
entries with a present embedding, but then reads `similarities[i]` with `i`
indexing the *full* `self.memories` list.  With an embedding-less entry in
the store the indices are shifted: the embedding-less entry is scored with
another entry's similarity and can be returned, and later candidates raise
`IndexError`. -/

def entryNoEmb : MemoryEntry :=
  { content := "a", timestamp := 0, importance := 5, access_count := 0, last_accessed := 0,
    embedding := none, tags := [], source := "s", compressed := false }

def entryEmb : MemoryEntry :=
  { content := "b", timestamp := 1, importance := 1, access_count := 0, last_accessed := 1,
    embedding := some [1, 0], tags := [], source := "s", compressed := false }

def misalignedState : DMState :=
  { memories := [entryNoEmb, entryEmb], ledger := [], compression_enabled := true,
    embeddings_available := true, embedding_model := some (fun _ => .ok [1, 0]) }

/-- `entryNoEmb` after the access-statistics bump of a retrieval at time 2. -/
def entryNoEmbHit : MemoryEntry :=
  { entryNoEmb with access_count := entryNoEmb.access_count + 1, last_accessed := 2 }

/-- C2 (code bug): retrieving from a store holding an embedding-less entry of
importance 5 and an embedded entry of importance 1 with `min_importance = 3`
returns the embedding-less entry — scored with the *other* entry's
similarity — even though the claim says such an entry is never scored or
returned. -/
theorem retrieve_returns_entry_without_embedding :
    retrieveMemories 2 misalignedState "q" 5 3
      = .ok ([entryNoEmbHit], { misalignedState with memories := [entryNoEmbHit, entryEmb] }) ∧
    entryNoEmb.embedding = none := by
  have himp0 : (3 : ℝ) ≤ entryNoEmb.importance := by
    show (3 : ℝ) ≤ 5; norm_num
  have himp1 : ¬((3 : ℝ) ≤ entryEmb.importance) := by
    show ¬((3 : ℝ) ≤ 1); norm_num
  have hinner : buildScored [ncos [1, 0] [1, 0]] 3 (0 + 1) [entryEmb] = .ok [] := by
    rw [buildScored, if_neg himp1]
    rfl
  have hbs : buildScored [ncos [1, 0] [1, 0]] 3 0 [entryNoEmb, entryEmb]
      = .ok [(scoreOf (ncos [1, 0] [1, 0]) entryNoEmb.importance, 0)] := by
    rw [buildScored, if_pos himp0]
    rw [show ([ncos [1, 0] [1, 0]].get? 0) = some (ncos [1, 0] [1, 0]) from rfl, hinner]
    rfl
  have hscored : scoredOf misalignedState "q" 3
      = .ok [(scoreOf (ncos [1, 0] [1, 0]) entryNoEmb.importance, 0)] := by
    rw [scoredOf]
    exact hbs
  refine ⟨?_, rfl⟩
  rw [retrieveMemories, if_neg (by decide), if_neg (by decide), hscored]
  rfl

/-! ## C3: the top-k bound, and what a negative `top_k` really does -/

/-- Evaluation lemma: on a non-empty store whose candidate matrix and query
embedding pass the shape checks, with a successful scoring pass,
`retrieve_memories` returns `retrieveResult`. -/
theorem retrieveMemories_eval (now : ℝ) (s : DMState) (query : String) (k : ℤ) (minImp : ℝ)
    (scored : List (ℝ × ℕ))
    (h1 : ¬s.memories.isEmpty = true)
    (hrag : ¬npRowsOk (candEmbs s) = false)
    (h2 : ¬(candEmbs s).length = 0)
    (hdim : ¬cosineShapeOk (generateEmbedding s query) (candEmbs s) = false)
    (hsc : scoredOf s query minImp = .ok scored) :
    retrieveMemories now s query k minImp = .ok (retrieveResult now s k scored) := by
  rw [retrieveMemories, if_neg h1, if_neg hrag, if_neg h2, if_neg hdim, hsc]

def entryT1 : MemoryEntry :=
  { content := "t1", timestamp := 0, importance := 1, access_count := 0, last_accessed := 0,
    embedding := some [1, 0], tags := [], source := "s", compressed := false }

def entryT2 : MemoryEntry := { entryT1 with content := "t2" }

def twoEntryState : DMState :=
  { memories := [entryT1, entryT2], ledger := [], compression_enabled := true,
    embeddings_available := true, embedding_model := some (fun _ => .ok [1, 0]) }

/-- C3 counterexample: with two scored candidates, `top_k = -1` returns ONE
entry, not an empty sequence — Python's `scored_memories[:top_k]` with a
negative bound drops the last `|top_k|` elements instead of all of them. -/
theorem retrieve_negative_topk_nonempty :
    retrieveMemories 3 twoEntryState "q" (-1) 0
      = .ok ([bumpAccess 3 entryT1],
          { twoEntryState with memories := [bumpAccess 3 entryT1, entryT2] }) ∧
    (-1 : ℤ) ≤ 0 := by
  have hq1 : (0 : ℝ) ≤ entryT1.importance := by show (0 : ℝ) ≤ 1; norm_num
  have hq2 : (0 : ℝ) ≤ entryT2.importance := by show (0 : ℝ) ≤ 1; norm_num
  have hb2 : buildScored [ncos [1, 0] [1, 0], ncos [1, 0] [1, 0]] 0 (0 + 1) [entryT2]
      = .ok [(scoreOf (ncos [1, 0] [1, 0]) entryT2.importance, 0 + 1)] := by
    rw [buildScored, if_pos hq2,
      show ([ncos [1, 0] [1, 0], ncos [1, 0] [1, 0]].get? (0 + 1))
        = some (ncos [1, 0] [1, 0]) from rfl]
    rfl
  have hb1 : buildScored [ncos [1, 0] [1, 0], ncos [1, 0] [1, 0]] 0 0 [entryT1, entryT2]
      = .ok [(scoreOf (ncos [1, 0] [1, 0]) entryT1.importance, 0),
             (scoreOf (ncos [1, 0] [1, 0]) entryT2.importance, 0 + 1)] := by
    rw [buildScored, if_pos hq1,
      show ([ncos [1, 0] [1, 0], ncos [1, 0] [1, 0]].get? 0)
        = some (ncos [1, 0] [1, 0]) from rfl, hb2]
    rfl
  have hscored : scoredOf twoEntryState "q" 0
      = .ok [(scoreOf (ncos [1, 0] [1, 0]) entryT1.importance, 0),
             (scoreOf (ncos [1, 0] [1, 0]) entryT2.importance, 0 + 1)] := by
    rw [scoredOf]
    exact hb1
  have hge : scoreGE (scoreOf (ncos [1, 0] [1, 0]) entryT1.importance, 0)
      (scoreOf (ncos [1, 0] [1, 0]) entryT2.importance, 0 + 1) := le_of_eq rfl
  have hsort : List.insertionSort scoreGE
      [(scoreOf (ncos [1, 0] [1, 0]) entryT1.importance, 0),
       (scoreOf (ncos [1, 0] [1, 0]) entryT2.importance, 0 + 1)]
      = [(scoreOf (ncos [1, 0] [1, 0]) entryT1.importance, 0),
         (scoreOf (ncos [1, 0] [1, 0]) entryT2.importance, 0 + 1)] := by
    show List.orderedInsert scoreGE (scoreOf (ncos [1, 0] [1, 0]) entryT1.importance, 0)
      [(scoreOf (ncos [1, 0] [1, 0]) entryT2.importance, 0 + 1)] = _
    rw [List.orderedInsert, if_pos hge]
  refine ⟨?_, by norm_num⟩
  rw [retrieveMemories_eval 3 twoEntryState "q" (-1) 0 _ (by decide) (by decide) (by decide)
    (by decide) hscored, retrieveResult, hsort]
  rfl

/-- C3 amended: whenever `retrieve_memories` returns (rather than raising),
the result has length at most `top_k` for `top_k ≥ 0` and is empty for
`top_k = 0`; for negative `top_k` Python slicing keeps all but the last
`|top_k|` scored candidates, so the result need not be empty (see the
counterexample). -/
theorem retrieve_topk_bound (now : ℝ) (s : DMState) (query : String) (k : ℤ) (minImp : ℝ)
    (res : List MemoryEntry) (s' : DMState)
    (hret : retrieveMemories now s query k minImp = .ok (res, s')) :
    (0 ≤ k → res.length ≤ k.toNat) ∧ (k = 0 → res.length = 0) := by
  rw [retrieveMemories] at hret
  by_cases h1 : s.memories.isEmpty
  · rw [if_pos h1] at hret
    simp only [Except.ok.injEq, Prod.mk.injEq] at hret
    rw [← hret.1]
    exact ⟨fun _ => by simp, fun _ => rfl⟩
  · rw [if_neg h1] at hret
    by_cases hrag : npRowsOk (candEmbs s) = false
    · rw [if_pos hrag] at hret
      simp at hret
    · rw [if_neg hrag] at hret
      by_cases h2 : (candEmbs s).length = 0
      · rw [if_pos h2] at hret
        simp only [Except.ok.injEq, Prod.mk.injEq] at hret
        rw [← hret.1]
        exact ⟨fun _ => by simp, fun _ => rfl⟩
      · rw [if_neg h2] at hret
        by_cases hdim : cosineShapeOk (generateEmbedding s query) (candEmbs s) = false
        · rw [if_pos hdim] at hret
          simp at hret
        · rw [if_neg hdim] at hret
          cases hsc : scoredOf s query minImp with
          | error e => rw [hsc] at hret; simp at hret
          | ok scored =>
            rw [hsc] at hret
            simp only [Except.ok.injEq] at hret
            have hres : res = (retrieveResult now s k scored).1 := by rw [hret]
            have hlen : (retrieveResult now s k scored).1.length
                ≤ (pySlice k (List.insertionSort scoreGE scored)).length := by
              simp only [retrieveResult]
              refine le_trans (List.length_filterMap_le _ _) ?_
              rw [List.length_map]
            rw [hres]
            constructor
            · intro hk
              refine le_trans hlen ?_
              rw [pySlice, if_pos hk, List.length_take]
              exact min_le_left _ _
            · intro hk0
              subst hk0
              have hz : (pySlice (0 : ℤ) (List.insertionSort scoreGE scored)).length = 0 := by
                rw [pySlice, if_pos le_rfl]
                simp [Int.toNat]
              omega

theorem retrieve_topk_bound_witness :
    ((0 : ℤ) ≤ 0 → ([] : List MemoryEntry).length ≤ (0 : ℤ).toNat) ∧
    ((0 : ℤ) = 0 → ([] : List MemoryEntry).length = 0) :=
  retrieve_topk_bound 0 noModelState "q" 0 0 [] noModelState rfl

/-! ## C8: clustering guard counts live entries, not candidates -/

theorem ncos_e2 : ncos [(1 : ℝ), 0] [(1 : ℝ), 0] = 1 := by
  have hd : dotl [(1 : ℝ), 0] [(1 : ℝ), 0] = 1 := by
    rw [dotl]
    norm_num
  rw [ncos, nrm, l2norm, hd, Real.sqrt_one, if_neg one_ne_zero]
  norm_num

def entryN1 : MemoryEntry := { entryNoEmb with content := "n1" }

def entryN2 : MemoryEntry := { entryNoEmb with content := "n2" }

/-- Three live entries but only one candidate (present embedding). -/
def clusterBugState : DMState :=
  { memories := [entryA, entryN1, entryN2], ledger := [], compression_enabled := true,
    embeddings_available := true, embedding_model := none }

/-- C8 counterexample: the store holds 3 live entries but only 1 candidate,
fewer than `min_samples = 2`; the claim demands a single group of all 3 live
entries with no clustering attempted, yet `cluster_memories` (whose guard
counts `self.memories`, not candidates) runs DBSCAN and returns one group
holding only the first entry. -/
theorem cluster_few_candidates_counterexample :
    (candEmbs clusterBugState).length < 2 ∧
    clusterMemories clusterBugState (3 / 10) 2 = [[entryA]] ∧
    clusterBugState.memories.length = 3 := by
  refine ⟨by decide, ?_, by decide⟩
  have hdist : cosDist [(1 : ℝ), 0] [(1 : ℝ), 0] ≤ 3 / 10 := by
    rw [cosDist, ncos_e2]
    norm_num
  have hnb : neighborsOf [[(1 : ℝ), 0]] (3 / 10) 0 = [0] := by
    rw [neighborsOf,
      show List.range (List.length [[(1 : ℝ), 0]]) = [0] from rfl,
      List.filter_cons,
      if_pos (decide_eq_true (by
        show cosDist (List.getD [[(1 : ℝ), 0]] 0 []) (List.getD [[(1 : ℝ), 0]] 0 []) ≤ 3 / 10
        exact hdist))]
    rfl
  have hcore : isCore [[(1 : ℝ), 0]] (3 / 10) 2 0 = false := by
    rw [isCore, hnb]
    rfl
  have hlabels : dbscanLabels [[(1 : ℝ), 0]] (3 / 10) 2 = [-1] := by
    rw [dbscanLabels]
    rw [show List.range (List.length [[(1 : ℝ), 0]]) = [0] from rfl]
    rw [dbscanLoop, if_neg (by rw [hcore]; simp)]
    rfl
  rw [clusterMemories, if_neg (by decide), if_neg (by decide),
    show candEmbs clusterBugState = [[(1 : ℝ), 0]] from rfl, hlabels]
  rfl

/-- C8 amended: `cluster_memories` returns the single group of all live
entries, with no clustering attempted, when there are fewer LIVE ENTRIES
than `min_samples` or when no candidate carries an embedding; when only the
candidates (entries with a present embedding) number fewer than
`min_samples`, clustering is attempted over them instead. -/
theorem cluster_few_entries_single_group (s : DMState) (eps : ℝ) (min_samples : ℕ)
    (h : s.memories.length < min_samples ∨ candEmbs s = []) :
    clusterMemories s eps min_samples = [s.memories] := by
  rcases h with hlt | hnil
  · rw [clusterMemories, if_pos hlt]
  · by_cases hlt : s.memories.length < min_samples
    · rw [clusterMemories, if_pos hlt]
    · rw [clusterMemories, if_neg hlt, if_pos (by rw [hnil]; rfl)]

theorem cluster_few_entries_single_group_witness :
    clusterMemories noModelState (3 / 10) 2 = [noModelState.memories] :=
  cluster_few_entries_single_group noModelState (3 / 10) 2 (Or.inl (by decide))

/-! ## C1: scoring formula and importance-sensitive ranking -/

theorem buildScored_mem_of (sims : List ℝ) (minImp : ℝ) :
    ∀ (rem : List MemoryEntry) (i : ℕ) (L : List (ℝ × ℕ)),
      buildScored sims minImp i rem = .ok L →
      ∀ (j : ℕ) (m : MemoryEntry) (v : ℝ), rem.get? j = some m → minImp ≤ m.importance →
        sims.get? (i + j) = some v → (scoreOf v m.importance, i + j) ∈ L := by
  intro rem
  induction rem with
  | nil =>
    intro i L _ j m v hj
    simp at hj
  | cons m0 rest ih =>
    intro i L hL j m v hj hq hv
    rw [buildScored] at hL
    by_cases hq0 : minImp ≤ m0.importance
    · rw [if_pos hq0] at hL
      cases hv0 : sims.get? i with
      | none => rw [hv0] at hL; simp at hL
      | some v0 =>
        rw [hv0] at hL
        cases hrest : buildScored sims minImp (i + 1) rest with
        | error e => rw [hrest] at hL; simp [Except.map] at hL
        | ok L' =>
          rw [hrest] at hL
          simp only [Except.map, Except.ok.injEq] at hL
          cases j with
          | zero =>
            have hm : m0 = m := by simpa using hj
            have hvv : v0 = v := by
              rw [Nat.add_zero] at hv
              rw [hv0] at hv
              simpa using hv
            rw [← hL, Nat.add_zero, ← hm, ← hvv]
            exact List.mem_cons_self _ _
          | succ j' =>
            have hj' : rest.get? j' = some m := by simpa using hj
            have hv' : sims.get? ((i + 1) + j') = some v := by
              rw [show (i + 1) + j' = i + (j' + 1) by omega]
              exact hv
            have hmem := ih (i + 1) L' hrest j' m v hj' hq hv'
            rw [← hL, show i + (j' + 1) = (i + 1) + j' by omega]
            exact List.mem_cons_of_mem _ hmem
    · rw [if_neg hq0] at hL
      cases j with
      | zero =>
        have hm : m0 = m := by simpa using hj
        rw [hm] at hq0
        exact absurd hq hq0
      | succ j' =>
        have hj' : rest.get? j' = some m := by simpa using hj
        have hv' : sims.get? ((i + 1) + j') = some v := by
          rw [show (i + 1) + j' = i + (j' + 1) by omega]
          exact hv
        have hmem := ih (i + 1) L hL j' m v hj' hq hv'
        rw [show i + (j' + 1) = (i + 1) + j' by omega]
        exact hmem

theorem buildScored_sound (sims : List ℝ) (minImp : ℝ) :
    ∀ (rem : List MemoryEntry) (i : ℕ) (L : List (ℝ × ℕ)),
      buildScored sims minImp i rem = .ok L →
      ∀ p ∈ L, ∃ j m v, rem.get? j = some m ∧ sims.get? (i + j) = some v ∧
        p = (scoreOf v m.importance, i + j) ∧ minImp ≤ m.importance := by
  intro rem
  induction rem with
  | nil =>
    intro i L hL p hp
    simp only [buildScored, Except.ok.injEq] at hL
    rw [← hL] at hp
    exact absurd hp (List.not_mem_nil p)
  | cons m0 rest ih =>
    intro i L hL p hp
    rw [buildScored] at hL
    by_cases hq0 : minImp ≤ m0.importance
    · rw [if_pos hq0] at hL
      cases hv0 : sims.get? i with
      | none => rw [hv0] at hL; simp at hL
      | some v0 =>
        rw [hv0] at hL
        cases hrest : buildScored sims minImp (i + 1) rest with
        | error e => rw [hrest] at hL; simp [Except.map] at hL
        | ok L' =>
          rw [hrest] at hL
          simp only [Except.map, Except.ok.injEq] at hL
          rw [← hL] at hp
          rcases List.mem_cons.mp hp with hhead | htail
          · exact ⟨0, m0, v0, by simp, by rw [Nat.add_zero]; exact hv0,
              by rw [hhead, Nat.add_zero], hq0⟩
          · obtain ⟨j, m, v, hj, hv, hpv, hq⟩ := ih (i + 1) L' hrest p htail
            exact ⟨j + 1, m, v, by simpa using hj,
              by rw [show i + (j + 1) = (i + 1) + j by omega]; exact hv,
              by rw [hpv, show i + (j + 1) = (i + 1) + j by omega], hq⟩
    · rw [if_neg hq0] at hL
      obtain ⟨j, m, v, hj, hv, hpv, hq⟩ := ih (i + 1) L hL p hp
      exact ⟨j + 1, m, v, by simpa using hj,
        by rw [show i + (j + 1) = (i + 1) + j by omega]; exact hv,
        by rw [hpv, show i + (j + 1) = (i + 1) + j by omega], hq⟩

theorem simsOf_get_of_all_present (s : DMState) (query : String)
    (hall : ∀ m ∈ s.memories, embPresent m.embedding = true)
    (j : ℕ) (m : MemoryEntry) (hj : s.memories.get? j = some m) :
    (simsOf s query).get? j
      = some (ncos (generateEmbedding s query) (m.embedding.getD [])) := by
  rw [simsOf, candEmbs_of_all_present s hall, List.map_map, List.get?_map, hj]
  rfl

theorem simsOf_length_of_all_present (s : DMState) (query : String)
    (hall : ∀ m ∈ s.memories, embPresent m.embedding = true) :
    (simsOf s query).length = s.memories.length := by
  rw [simsOf, List.length_map, candEmbs_of_all_present s hall, List.length_map]

theorem filterMap_eq_map_of_some {α β : Type} (f : α → Option β) (g : α → β) :
    ∀ l : List α, (∀ a ∈ l, f a = some (g a)) → l.filterMap f = l.map g := by
  intro l
  induction l with
  | nil => intro _; rfl
  | cons a l ih =>
    intro h
    rw [List.filterMap_cons, h a (List.mem_cons_self a l), List.map_cons,
      ih (fun b hb => h b (List.mem_cons_of_mem a hb))]

theorem pySlice_eq_take {α : Type} (k : ℤ) (l : List α) :
    ∃ c, pySlice k l = l.take c := by
  rw [pySlice]
  by_cases hk : 0 ≤ k
  · exact ⟨k.toNat, if_pos hk⟩
  · exact ⟨l.length - (-k).toNat, if_neg hk⟩

theorem getD_of_get? {α : Type} (l : List α) (j : ℕ) (a d : α) (h : l.get? j = some a) :
    l.getD j d = a := by
  rw [List.getD_eq_getElem?_getD, ← List.get?_eq_getElem?, h]
  rfl

/-- When every index picked by the slice is in range, the returned entry list
is the picked indices mapped through the access bump. -/
theorem retrieveResult_fst_eq_map (now : ℝ) (s : DMState) (k : ℤ)
    (scored : List (ℝ × ℕ)) (dflt : MemoryEntry)
    (hidx : ∀ p ∈ List.insertionSort scoreGE scored, p.2 < s.memories.length) :
    (retrieveResult now s k scored).1
      = ((pySlice k (List.insertionSort scoreGE scored)).map Prod.snd).map
          (fun j => bumpAccess now (s.memories.getD j dflt)) := by
  rw [retrieveResult]
  apply filterMap_eq_map_of_some
  intro j hj
  have hjlt : j < s.memories.length := by
    obtain ⟨pair, hpair, rfl⟩ := List.mem_map.mp hj
    obtain ⟨c, hc⟩ := pySlice_eq_take k (List.insertionSort scoreGE scored)
    rw [hc] at hpair
    exact hidx pair (List.take_subset c _ hpair)
  obtain ⟨mj, hmj⟩ : ∃ mj, s.memories.get? j = some mj :=
    ⟨s.memories.get ⟨j, hjlt⟩, List.get?_eq_some.mpr ⟨hjlt, rfl⟩⟩
  rw [List.get?_map, List.get?_enum, hmj, Option.map_some', Option.map_some', if_pos hj,
    getD_of_get? s.memories j mj dflt hmj]

/-- C1: `retrieve_memories` scores each candidate as
`cosine_similarity(query, candidate) * (1 + ln(1 + importance))`.  A
similarity of 0 therefore gives score 0 whatever the importance; and of two
candidates with equal positive similarity, the one with strictly greater
importance gets a strictly greater score and is ranked strictly earlier in
the returned order (every returned occurrence of the lower-importance entry
has the higher-importance entry before it). -/
theorem retrieval_score_importance_ranking
    (s : DMState) (query : String) (now : ℝ) (k : ℤ) (minImp : ℝ)
    (res : List MemoryEntry) (s' : DMState) (iA iB : ℕ) (mA mB : MemoryEntry)
    (hall : ∀ m ∈ s.memories, embPresent m.embedding = true)
    (hA : s.memories.get? iA = some mA) (hB : s.memories.get? iB = some mB)
    (hqA : minImp ≤ mA.importance) (hqB : minImp ≤ mB.importance)
    (h0A : 0 ≤ mA.importance)
    (hsim : ncos (generateEmbedding s query) (mA.embedding.getD [])
          = ncos (generateEmbedding s query) (mB.embedding.getD []))
    (hpos : 0 < ncos (generateEmbedding s query) (mA.embedding.getD []))
    (himp : mA.importance < mB.importance)
    (hret : retrieveMemories now s query k minImp = .ok (res, s')) :
    (∀ imp : ℝ, scoreOf 0 imp = 0) ∧
    scoreOf (ncos (generateEmbedding s query) (mA.embedding.getD [])) mA.importance
      < scoreOf (ncos (generateEmbedding s query) (mB.embedding.getD [])) mB.importance ∧
    ∀ pA, res.get? pA = some (bumpAccess now mA) →
      ∃ pB, pB < pA ∧ res.get? pB = some (bumpAccess now mB) := by
  have hzero : ∀ imp : ℝ, scoreOf 0 imp = 0 := fun imp => by rw [scoreOf, zero_mul]
  have hscore : scoreOf (ncos (generateEmbedding s query) (mA.embedding.getD []))
      mA.importance
      < scoreOf (ncos (generateEmbedding s query) (mB.embedding.getD [])) mB.importance := by
    rw [scoreOf, scoreOf, ← hsim]
    apply mul_lt_mul_of_pos_left _ hpos
    have hlog : Real.log (1 + mA.importance) < Real.log (1 + mB.importance) :=
      Real.log_lt_log (by linarith) (by linarith)
    linarith
  refine ⟨hzero, hscore, ?_⟩
  -- run the retrieval pipeline
  have hnil : s.memories ≠ [] := by
    intro h
    rw [h] at hA
    simp at hA
  have hne : ¬s.memories.isEmpty = true := fun h => hnil (List.isEmpty_iff.mp h)
  have hcne : ¬(candEmbs s).length = 0 := by
    rw [candEmbs_of_all_present s hall, List.length_map]
    exact fun h0 => hnil (List.length_eq_zero.mp h0)
  obtain ⟨scored, hsc', hret_pair⟩ : ∃ scored, scoredOf s query minImp = .ok scored ∧
      retrieveResult now s k scored = (res, s') := by
    rw [retrieveMemories, if_neg hne] at hret
    by_cases hrag : npRowsOk (candEmbs s) = false
    · rw [if_pos hrag] at hret
      simp at hret
    · rw [if_neg hrag, if_neg hcne] at hret
      by_cases hdim : cosineShapeOk (generateEmbedding s query) (candEmbs s) = false
      · rw [if_pos hdim] at hret
        simp at hret
      · rw [if_neg hdim] at hret
        cases hsc : scoredOf s query minImp with
        | error e => rw [hsc] at hret; simp at hret
        | ok scored =>
          rw [hsc] at hret
          simp only [Except.ok.injEq] at hret
          exact ⟨scored, rfl, hret⟩
  have hsc : buildScored (simsOf s query) minImp 0 s.memories = .ok scored := by
    rw [scoredOf] at hsc'
    exact hsc'
  have hres : res = (retrieveResult now s k scored).1 := by rw [hret_pair]
  -- every scored index is in range
  have hidx : ∀ p ∈ List.insertionSort scoreGE scored, p.2 < s.memories.length := by
    intro p hp
    have hp_sc : p ∈ scored := (List.perm_insertionSort scoreGE scored).mem_iff.mp hp
    obtain ⟨j, m, v, hj, _, hpv, _⟩ := buildScored_sound _ _ _ _ _ hsc p hp_sc
    obtain ⟨hjlt, _⟩ := List.get?_eq_some.mp hj
    rw [hpv]
    simpa using hjlt
  have hres_map := retrieveResult_fst_eq_map now s k scored mA hidx
  rw [hres_map] at hres
  -- the pair of B is in the sorted list
  have hsimsB := simsOf_get_of_all_present s query hall iB mB hB
  have hmemB : (scoreOf (ncos (generateEmbedding s query) (mB.embedding.getD []))
      mB.importance, iB) ∈ scored := by
    have := buildScored_mem_of (simsOf s query) minImp s.memories 0 scored hsc iB mB
      (ncos (generateEmbedding s query) (mB.embedding.getD [])) hB hqB
      (by rw [Nat.zero_add]; exact hsimsB)
    simpa using this
  have hmemB' : (scoreOf (ncos (generateEmbedding s query) (mB.embedding.getD []))
      mB.importance, iB) ∈ List.insertionSort scoreGE scored :=
    (List.perm_insertionSort scoreGE scored).mem_iff.mpr hmemB
  obtain ⟨pB, hpB⟩ := List.mem_iff_get?.mp hmemB'
  have hsorted : List.Sorted scoreGE (List.insertionSort scoreGE scored) :=
    List.sorted_insertionSort scoreGE scored
  obtain ⟨cut, hc⟩ := pySlice_eq_take k (List.insertionSort scoreGE scored)
  -- unpack a returned occurrence of (bumped) mA
  intro pA hpA
  rw [hres, List.get?_map, List.get?_map] at hpA
  obtain ⟨pairA, hslice_pA, hgA⟩ : ∃ pairA,
      (pySlice k (List.insertionSort scoreGE scored)).get? pA = some pairA ∧
      bumpAccess now (s.memories.getD pairA.2 mA) = bumpAccess now mA := by
    cases hq : (pySlice k (List.insertionSort scoreGE scored)).get? pA with
    | none => rw [hq] at hpA; simp at hpA
    | some pairA =>
      rw [hq] at hpA
      simp only [Option.map_some', Option.some.injEq] at hpA
      exact ⟨pairA, rfl, hpA⟩
  have hpA_cut : pA < cut := by
    obtain ⟨hlt, _⟩ := List.get?_eq_some.mp hslice_pA
    rw [hc, List.length_take] at hlt
    exact lt_of_lt_of_le hlt (min_le_left _ _)
  have hsorted_pA : (List.insertionSort scoreGE scored).get? pA = some pairA := by
    rw [hc] at hslice_pA
    rwa [List.get?_take hpA_cut] at hslice_pA
  -- the entry at pairA.2 agrees with mA on importance and embedding
  have hmA' : (s.memories.getD pairA.2 mA).importance = mA.importance := by
    have h := congrArg MemoryEntry.importance hgA
    exact h
  have hembA' : (s.memories.getD pairA.2 mA).embedding = mA.embedding := by
    have h := congrArg MemoryEntry.embedding hgA
    exact h
  -- pairA's score is A's score
  have hpairA_mem : pairA ∈ scored :=
    (List.perm_insertionSort scoreGE scored).mem_iff.mp (List.get?_mem hsorted_pA)
  obtain ⟨j', m', v', hj', hv', hpv', _⟩ := buildScored_sound _ _ _ _ _ hsc pairA hpairA_mem
  have hv'' : v' = ncos (generateEmbedding s query) (m'.embedding.getD []) := by
    have hget := simsOf_get_of_all_present s query hall j' m' hj'
    rw [Nat.zero_add] at hv'
    rw [hget] at hv'
    exact (Option.some.inj hv').symm
  have hm'_eq : m' = s.memories.getD pairA.2 mA := by
    have hsnd : pairA.2 = j' := by rw [hpv']; simp
    rw [hsnd]
    exact (getD_of_get? s.memories j' m' mA hj').symm
  have hscoreA : pairA.1
      = scoreOf (ncos (generateEmbedding s query) (mA.embedding.getD [])) mA.importance := by
    rw [hpv']
    show scoreOf v' m'.importance = _
    rw [hv'', hm'_eq, hembA', hmA']
  -- B strictly earlier than A in the sorted list
  have hpB_lt_pA : pB < pA := by
    obtain ⟨hpBlt, hgetB⟩ := List.get?_eq_some.mp hpB
    obtain ⟨hpAlt, hgetA⟩ := List.get?_eq_some.mp hsorted_pA
    rcases lt_trichotomy pB pA with h | h | h
    · exact h
    · exfalso
      rw [h] at hpB
      rw [hpB] at hsorted_pA
      have : (scoreOf (ncos (generateEmbedding s query) (mB.embedding.getD []))
          mB.importance, iB) = pairA := by simpa using hsorted_pA
      rw [← this] at hscoreA
      simp only at hscoreA
      exact absurd hscoreA (ne_of_gt hscore)
    · exfalso
      have hrel := List.pairwise_iff_get.mp hsorted ⟨pA, hpAlt⟩ ⟨pB, hpBlt⟩ h
      rw [hgetA, hgetB] at hrel
      have : scoreOf (ncos (generateEmbedding s query) (mB.embedding.getD []))
          mB.importance ≤ pairA.1 := hrel
      rw [hscoreA] at this
      exact absurd this (not_le.mpr hscore)
  -- hence B is also inside the slice, before A
  have hslice_pB : (pySlice k (List.insertionSort scoreGE scored)).get? pB
      = some (scoreOf (ncos (generateEmbedding s query) (mB.embedding.getD []))
          mB.importance, iB) := by
    rw [hc, List.get?_take (lt_trans hpB_lt_pA hpA_cut)]
    exact hpB
  refine ⟨pB, hpB_lt_pA, ?_⟩
  rw [hres, List.get?_map, List.get?_map, hslice_pB]
  simp only [Option.map_some', Option.some.injEq]
  rw [getD_of_get? s.memories iB mB mA hB]

def entryW9 : MemoryEntry := { entryT1 with content := "w9", importance := 9 }

def orderState : DMState :=
  { memories := [entryT1, entryW9], ledger := [], compression_enabled := true,
    embeddings_available := true, embedding_model := some (fun _ => .ok [1, 0]) }

theorem retrieval_score_importance_ranking_witness :
    scoreOf 0 5 = 0 ∧
    scoreOf (ncos (generateEmbedding orderState "q") (entryT1.embedding.getD []))
        entryT1.importance
      < scoreOf (ncos (generateEmbedding orderState "q") (entryW9.embedding.getD []))
        entryW9.importance ∧
    ∃ pB, pB < 1 ∧
      [bumpAccess 7 entryW9, bumpAccess 7 entryT1].get? pB = some (bumpAccess 7 entryW9) := by
  have hq1 : (0 : ℝ) ≤ entryT1.importance := by show (0 : ℝ) ≤ 1; norm_num
  have hq9 : (0 : ℝ) ≤ entryW9.importance := by show (0 : ℝ) ≤ 9; norm_num
  have hb2 : buildScored [ncos [1, 0] [1, 0], ncos [1, 0] [1, 0]] 0 (0 + 1) [entryW9]
      = .ok [(scoreOf (ncos [1, 0] [1, 0]) entryW9.importance, 0 + 1)] := by
    rw [buildScored, if_pos hq9,
      show ([ncos [1, 0] [1, 0], ncos [1, 0] [1, 0]].get? (0 + 1))
        = some (ncos [1, 0] [1, 0]) from rfl]
    rfl
  have hb1 : buildScored [ncos [1, 0] [1, 0], ncos [1, 0] [1, 0]] 0 0 [entryT1, entryW9]
      = .ok [(scoreOf (ncos [1, 0] [1, 0]) entryT1.importance, 0),
             (scoreOf (ncos [1, 0] [1, 0]) entryW9.importance, 0 + 1)] := by
    rw [buildScored, if_pos hq1,
      show ([ncos [1, 0] [1, 0], ncos [1, 0] [1, 0]].get? 0)
        = some (ncos [1, 0] [1, 0]) from rfl, hb2]
    rfl
  have hscored : scoredOf orderState "q" 0
      = .ok [(scoreOf (ncos [1, 0] [1, 0]) entryT1.importance, 0),
             (scoreOf (ncos [1, 0] [1, 0]) entryW9.importance, 0 + 1)] := by
    rw [scoredOf]
    exact hb1
  have hlt : scoreOf (ncos [1, 0] [1, 0]) entryT1.importance
      < scoreOf (ncos [1, 0] [1, 0]) entryW9.importance := by
    rw [ncos_e2, scoreOf, scoreOf]
    show (1 : ℝ) * (1 + Real.log (1 + 1)) < 1 * (1 + Real.log (1 + 9))
    have hlog := Real.log_lt_log (show (0 : ℝ) < 1 + 1 by norm_num)
      (show (1 : ℝ) + 1 < 1 + 9 by norm_num)
    linarith
  have hnot : ¬scoreGE (scoreOf (ncos [1, 0] [1, 0]) entryT1.importance, 0)
      (scoreOf (ncos [1, 0] [1, 0]) entryW9.importance, 0 + 1) := by
    show ¬(scoreOf (ncos [1, 0] [1, 0]) entryW9.importance
      ≤ scoreOf (ncos [1, 0] [1, 0]) entryT1.importance)
    exact not_le.mpr hlt
  have hsort : List.insertionSort scoreGE
      [(scoreOf (ncos [1, 0] [1, 0]) entryT1.importance, 0),
       (scoreOf (ncos [1, 0] [1, 0]) entryW9.importance, 0 + 1)]
      = [(scoreOf (ncos [1, 0] [1, 0]) entryW9.importance, 0 + 1),
         (scoreOf (ncos [1, 0] [1, 0]) entryT1.importance, 0)] := by
    show List.orderedInsert scoreGE (scoreOf (ncos [1, 0] [1, 0]) entryT1.importance, 0)
      [(scoreOf (ncos [1, 0] [1, 0]) entryW9.importance, 0 + 1)] = _
    rw [List.orderedInsert, if_neg hnot]
    rfl
  have hret : retrieveMemories 7 orderState "q" 5 0
      = .ok ([bumpAccess 7 entryW9, bumpAccess 7 entryT1],
          { orderState with memories := [bumpAccess 7 entryT1, bumpAccess 7 entryW9] }) := by
    rw [retrieveMemories_eval 7 orderState "q" 5 0 _ (by decide) (by decide) (by decide)
      (by decide) hscored, retrieveResult, hsort]
    rfl
  obtain ⟨h1, h2, h3⟩ := retrieval_score_importance_ranking orderState "q" 7 5 0
    [bumpAccess 7 entryW9, bumpAccess 7 entryT1]
    { orderState with memories := [bumpAccess 7 entryT1, bumpAccess 7 entryW9] }
    0 1 entryT1 entryW9
    (by decide) rfl rfl
    (by show (0 : ℝ) ≤ 1; norm_num) (by show (0 : ℝ) ≤ 9; norm_num)
    (by show (0 : ℝ) ≤ 1; norm_num)
    rfl
    (by show (0 : ℝ) < ncos [1, 0] [1, 0]; rw [ncos_e2]; norm_num)
    (by show (1 : ℝ) < 9; norm_num)
    hret
  exact ⟨h1 5, h2, h3 1 rfl⟩

end HiveMem
